import Mathlib

/-!
# Verification of the quiz-generator backend's extraction core

This file gives a shallow embedding of the content-extraction pipeline of the
backend (src/services/contentExtractor.js, the multer upload configuration and
the HTTP error middleware) and proves properties of it.

Strings are modelled at the character-list level (`List Char`); the JavaScript
string operations used by the source (regex replaces over `[ \t]+` and
`\n{3,}`, `split('\n')`, `trim()`, `join('\n')`) are translated into
structurally recursive functions over `List Char`.
-/

namespace QuizBackend

/-! ## Content normalizer (`cleanContent`)

Source (contentExtractor.js, `cleanContent`):

    if (!content) return '';
    return content
      .replace(/[ \t]+/g, ' ')
      .replace(/\n{3,}/g, '\n\n')
      .split('\n')
      .map(line => line.trim())
      .join('\n')
      .trim();
-/

/-- Characters matched by the regex character class `[ \t]`. -/
def isHT (c : Char) : Bool := c = ' ' || c = '\t'

/-- The set of characters trimmed by JavaScript `String.prototype.trim`
(ECMAScript WhiteSpace and LineTerminator code points). -/
def isWS (c : Char) : Bool :=
  c = ' ' || c = '\t' || c = '\n' || c = '\r' ||
  c = '\u000B' || c = '\u000C' || c = '\u00A0' || c = '\u1680' ||
  c = '\u2000' || c = '\u2001' || c = '\u2002' || c = '\u2003' ||
  c = '\u2004' || c = '\u2005' || c = '\u2006' || c = '\u2007' ||
  c = '\u2008' || c = '\u2009' || c = '\u200A' || c = '\u2028' ||
  c = '\u2029' || c = '\u202F' || c = '\u205F' || c = '\u3000' ||
  c = '\uFEFF'

/-- `replace(/[ \t]+/g, ' ')`: each maximal run of spaces/tabs becomes one
space.  The Boolean argument records whether we are inside such a run (the
run's single replacement space has already been emitted). -/
def collapseHTAux : Bool → List Char → List Char
  | _, [] => []
  | inRun, c :: cs =>
    if isHT c then
      if inRun then collapseHTAux true cs
      else ' ' :: collapseHTAux true cs
    else c :: collapseHTAux false cs

/-- `replace(/[ \t]+/g, ' ')`. -/
def collapseHT (s : List Char) : List Char := collapseHTAux false s

/-- `replace(/\n{3,}/g, '\n\n')`: each maximal run of three or more newlines
becomes exactly two.  Equivalently, at most two newlines of every maximal
newline run are kept; `n` counts the newlines of the current run already
emitted. -/
def capNLAux : Nat → List Char → List Char
  | _, [] => []
  | n, c :: cs =>
    if c = '\n' then
      if n < 2 then '\n' :: capNLAux (n + 1) cs
      else capNLAux n cs
    else c :: capNLAux 0 cs

/-- `replace(/\n{3,}/g, '\n\n')`. -/
def capNL (s : List Char) : List Char := capNLAux 0 s

/-- `split('\n')`.  Never returns the empty list; `splitNL [] = [[]]`,
matching JavaScript's `''.split('\n') = ['']`. -/
def splitNL : List Char → List (List Char)
  | [] => [[]]
  | c :: cs =>
    if c = '\n' then [] :: splitNL cs
    else
      match splitNL cs with
      | [] => [[c]]
      | l :: ls => (c :: l) :: ls

/-- `join('\n')`. -/
def joinNL : List (List Char) → List Char
  | [] => []
  | [l] => l
  | l :: ls => l ++ '\n' :: joinNL ls

/-- `trim()`: remove leading and trailing whitespace. -/
def trimChars (s : List Char) : List Char :=
  ((s.dropWhile isWS).reverse.dropWhile isWS).reverse

/-- The four-stage normalization pipeline applied to a non-empty string. -/
def cleanCore (s : List Char) : List Char :=
  trimChars (joinNL ((splitNL (capNL (collapseHT s))).map trimChars))

/-- `cleanContent(content)` (contentExtractor.js).  The input is `none` for a
missing (`undefined`/`null`) argument; `!content` is also true for the empty
string, so both return `''`. -/
def cleanContent (content : Option String) : String :=
  match content with
  | none => ""
  | some s => if s = "" then "" else String.mk (cleanCore s.data)

/-! ### Shape predicates for normalized text

These predicates describe the output shape of the normalizer; they are used
to settle the idempotence claim and the output invariants. -/

/-- The line-trimming stage: `split('\n').map(trim).join('\n')`. -/
def stage3 (s : List Char) : List Char :=
  joinNL ((splitNL s).map trimChars)

/-- No three consecutive newlines anywhere. -/
def tripleNLFree : List Char → Bool
  | a :: b :: c :: rest =>
    !(a == '\n' && b == '\n' && c == '\n') && tripleNLFree (b :: c :: rest)
  | _ => true

/-- The number of leading newlines. -/
def leadNL (s : List Char) : Nat :=
  (s.takeWhile (fun c => c == '\n')).length

/-- The first line of a string (characters before the first newline). -/
def headLine : List Char → List Char
  | [] => []
  | c :: cs => if c = '\n' then [] else c :: headLine cs

/-- All lines after the first. -/
def tailLines (s : List Char) : List (List Char) := (splitNL s).tail

/-- No two adjacent spaces (the pair relation). -/
def NDS (a b : Char) : Prop := ¬(a = ' ' ∧ b = ' ')

/-- Every line is already trimmed. -/
def LinesTrimmed (s : List Char) : Prop := ∀ l ∈ splitNL s, trimChars l = l

/-- The whole string is already trimmed. -/
def Trimmed (s : List Char) : Prop := trimChars s = s

/-- The shape every normalizer output has: no tabs, no adjacent spaces,
all lines trimmed, whole string trimmed. -/
def CleanShape (s : List Char) : Prop :=
  '\t' ∉ s ∧ List.Chain' NDS s ∧ LinesTrimmed s ∧ Trimmed s

/-! ## Filesystem model and extraction orchestrator

The filesystem is an association list from paths to file contents, together
with a trace of every read and every unlink attempt, and a set of paths on
which `fs.unlinkSync` has been made to fail (to model underlying deletion
errors).  JavaScript exceptions are modelled by the explicit
`SysState → Except String α × SysState` shape: a thrown error propagates as
`.error`, and — as in JavaScript — the state reached so far persists. -/

/-- The filesystem together with traces of the effects performed on it. -/
structure SysState where
  /-- Existing files: association list from path to content. -/
  files : List (String × String)
  /-- Paths on which `fs.unlinkSync` throws (injected deletion errors). -/
  unlinkErrs : List String
  /-- Paths passed to `fs.readFileSync`, in order. -/
  readTrace : List String
  /-- Paths passed to `fs.unlinkSync` (delete attempts), in order. -/
  unlinkTrace : List String
deriving DecidableEq, Repr

/-- Look a path up in an association list of files. -/
def lookupFile : List (String × String) → String → Option String
  | [], _ => none
  | (q, c) :: rest, p => if q = p then some c else lookupFile rest p

/-- Remove every entry for a path from an association list of files. -/
def removeFile : List (String × String) → String → List (String × String)
  | [], _ => []
  | (q, c) :: rest, p =>
    if q = p then removeFile rest p else (q, c) :: removeFile rest p

/-- A computation that may throw, threading the filesystem state
(JavaScript semantics: state changes made before a throw persist). -/
def ExtractM (α : Type) : Type := SysState → Except String α × SysState

/-- `fs.readFileSync(path)`: the read attempt is recorded; a missing file
throws. -/
def readFileSync (p : String) : ExtractM String := fun s =>
  let s1 : SysState := { s with readTrace := s.readTrace ++ [p] }
  match lookupFile s.files p with
  | some c => (.ok c, s1)
  | none => (.error ("ENOENT: no such file or directory, open " ++ p), s1)

/-- `fs.existsSync(path)`. -/
def existsSync (p : String) (s : SysState) : Bool :=
  (lookupFile s.files p).isSome

/-- `fs.unlinkSync(path)`: the delete attempt is recorded; on an injected
error the file is left in place and an error is thrown. -/
def unlinkSync (p : String) : ExtractM Unit := fun s =>
  let s1 : SysState := { s with unlinkTrace := s.unlinkTrace ++ [p] }
  if p ∈ s.unlinkErrs then
    (.error ("EPERM: operation not permitted, unlink " ++ p), s1)
  else
    (.ok (), { s1 with files := removeFile s1.files p })

/-- The `try`-block body of `cleanupFile` (contentExtractor.js):
`if (fs.existsSync(filePath)) fs.unlinkSync(filePath)`. -/
def cleanupFileTry (p : String) : ExtractM Unit := fun s =>
  if existsSync p s then unlinkSync p s else (.ok (), s)

/-- `cleanupFile(filePath)` with its `catch`: any error of the body is
swallowed (only logged), so the result is an error-free state paired with
`none` in place of a propagated exception. -/
def cleanupFileCaught (p : String) (s : SysState) : Option String × SysState :=
  match cleanupFileTry p s with
  | (.ok _, s1) => (none, s1)
  | (.error _, s1) => (none, s1)

/-- `cleanupFile(filePath)`: the state after best-effort deletion. -/
def cleanupFile (p : String) (s : SysState) : SysState :=
  (cleanupFileCaught p s).2

/-- The external extraction libraries (`pdf-parse`, `tesseract.js`),
as oracles from file content to extracted text or an error message. -/
structure ExtractorEnv where
  pdfParse : String → Except String String
  ocr : String → Except String String

/-- The `try/catch` wrapping done inside each extractor: a successful result
passes through, an error message is re-thrown with the given prefix. -/
def wrapErr (pre : String) : Except String String → Except String String
  | .ok t => .ok t
  | .error m => .error (pre ++ m)

/-- `extractFromPDF(filePath)`: read the file, run the PDF parser, wrap any
error as `Failed to extract text from PDF: <message>`. -/
def extractFromPDF (env : ExtractorEnv) (p : String) : ExtractM String := fun s =>
  (wrapErr "Failed to extract text from PDF: " ((readFileSync p s).1.bind env.pdfParse),
   (readFileSync p s).2)

/-- `extractFromImage(filePath)`: the OCR engine reads the file and
recognizes text; any error is wrapped as
`Failed to extract text from image: <message>`. -/
def extractFromImage (env : ExtractorEnv) (p : String) : ExtractM String := fun s =>
  (wrapErr "Failed to extract text from image: " ((readFileSync p s).1.bind env.ocr),
   (readFileSync p s).2)

/-- `extractFromText(filePath)`: read the file as text and return its content
verbatim; a read error is wrapped as `Failed to read text file: <message>`. -/
def extractFromText (p : String) : ExtractM String := fun s =>
  (wrapErr "Failed to read text file: " (readFileSync p s).1,
   (readFileSync p s).2)

/-- `String.prototype.startsWith` (used as `mimeType.startsWith('image/')`),
modelled at the character level: the pattern is a prefix of the string. -/
def strStartsWith (s pre : String) : Bool := pre.data.isPrefixOf s.data

/-- Decidable equality of `Except` values, for evaluating concrete runs. -/
instance exceptDecEq {ε α : Type} [DecidableEq ε] [DecidableEq α] :
    DecidableEq (Except ε α)
  | .ok a, .ok b => if h : a = b then .isTrue (by rw [h]) else .isFalse (by simp [h])
  | .ok _, .error _ => .isFalse (by simp)
  | .error _, .ok _ => .isFalse (by simp)
  | .error a, .error b => if h : a = b then .isTrue (by rw [h]) else .isFalse (by simp [h])

/-- A multer file object, as handed to `extractFromFile`. -/
structure UploadedFile where
  path : String
  mimetype : String
  originalname : String
deriving DecidableEq, Repr

/-- The `if/else if/else` chain of `extractFromFile`: dispatch on
`file.mimetype` — exact match for `application/pdf`, prefix match for
`image/`, exact match for `text/plain`, otherwise throw
`Unsupported file type: <mimetype>`. -/
def dispatchExtract (env : ExtractorEnv) (file : UploadedFile) : ExtractM String := fun s =>
  if file.mimetype = "application/pdf" then extractFromPDF env file.path s
  else if strStartsWith file.mimetype "image/" then extractFromImage env file.path s
  else if file.mimetype = "text/plain" then extractFromText file.path s
  else (.error ("Unsupported file type: " ++ file.mimetype), s)

/-- The tail of `extractFromFile`: on success, clean up the uploaded file and
return the normalized content; on error (the `catch` block), clean up the
file too and re-throw the caught error unchanged. -/
def finishExtract (p : String) (z : Except String String × SysState) :
    Except String String × SysState :=
  (match z.1 with
   | .ok content => .ok (cleanContent (some content))
   | .error e => .error e,
   cleanupFile p z.2)

/-- `extractFromFile(file)` (contentExtractor.js): dispatch on the declared
media type, clean up the temporary file on both the success and the error
path, and return the normalized content. -/
def extractFromFile (env : ExtractorEnv) (file : UploadedFile) : ExtractM String :=
  fun s => finishExtract file.path (dispatchExtract env file s)

/-! ## Upload collaborator (multer configuration) and HTTP boundary -/

/-- The media-type allow-list of the multer `fileFilter`
(quizGenerator.js / the upload route module). -/
def allowedTypes : List String :=
  ["application/pdf", "image/jpeg", "image/png", "image/gif", "image/webp", "text/plain"]

/-- `fileFilter`: accept exactly the allow-listed media types. -/
def fileFilter (mimetype : String) : Bool :=
  allowedTypes.contains mimetype

/-- `parseInt(process.env.MAX_FILE_SIZE) || 10 * 1024 * 1024`: the configured
byte limit, defaulting to 10 MiB when the variable is unset (or parses to the
falsy `0`/`NaN`). -/
def maxFileSize (envVar : Option Nat) : Nat :=
  match envVar with
  | some n => if n = 0 then 10 * 1024 * 1024 else n
  | none => 10 * 1024 * 1024

/-- Modelled from the spec: the multer upload middleware itself is a library
collaborator whose code is not part of this repository; per the spec it
admits a file exactly when the configured `fileFilter` accepts its media type
and its size is within the configured `fileSize` limit
(`≤ configurable byte limit`), rejecting anything else before the core
extractor runs. -/
def uploadAccepts (mimetype : String) (size : Nat) (envVar : Option Nat) : Bool :=
  fileFilter mimetype && decide (size ≤ maxFileSize envVar)

/-- An HTTP response of the upload route: either the success envelope
`{success: true, data: {filename, fileType, content, contentLength}}` or the
error envelope `{success: false, error}`. -/
inductive UploadResponse where
  | success (filename fileType content : String) (contentLength : Nat)
  | failure (error : String)
deriving DecidableEq, Repr

/-- The error-handling middleware (server module):
`res.json({success: false, error: err.message || 'Internal server error'})`. -/
def errorMiddleware (msg : String) : UploadResponse :=
  .failure (if msg = "" then "Internal server error" else msg)

/-- The `POST /file` route handler: run `extractFromFile` and map its result
to the HTTP envelope; errors are passed via `next(error)` to the
error-handling middleware. -/
def uploadRouteHandle (env : ExtractorEnv) (file : UploadedFile) (s : SysState) :
    UploadResponse × SysState :=
  match extractFromFile env file s with
  | (.ok content, s1) =>
    (.success file.originalname file.mimetype content content.length, s1)
  | (.error m, s1) => (errorMiddleware m, s1)

/-- Modelled from the spec: the multer middleware runs before the route
handler, so a file failing validation is rejected with an error envelope and
the core extractor never runs. -/
def handleFileUpload (env : ExtractorEnv) (file : UploadedFile) (size : Nat)
    (envVar : Option Nat) (s : SysState) : UploadResponse × SysState :=
  if uploadAccepts file.mimetype size envVar then
    uploadRouteHandle env file s
  else
    (errorMiddleware
      "Invalid file type. Allowed: PDF, Images (JPEG, PNG, GIF, WebP), Text files", s)

/-! ## Helper lemmas about the filesystem model -/

/-- `readFileSync` only appends to the read trace. -/
lemma readFileSync_snd (p : String) (s : SysState) :
    (readFileSync p s).2 = { s with readTrace := s.readTrace ++ [p] } := by
  unfold readFileSync
  cases lookupFile s.files p <;> rfl

/-- The value read depends only on the file contents. -/
lemma readFileSync_fst (p : String) (s : SysState) :
    (readFileSync p s).1 =
      (match lookupFile s.files p with
       | some c => .ok c
       | none => .error ("ENOENT: no such file or directory, open " ++ p)) := by
  unfold readFileSync
  cases lookupFile s.files p <;> rfl

lemma readFileSync_fst_congr (p : String) {s s' : SysState} (h : s'.files = s.files) :
    (readFileSync p s').1 = (readFileSync p s).1 := by
  rw [readFileSync_fst, readFileSync_fst, h]

/-- Dispatch equations, one per branch of the `if/else if` chain. -/
lemma dispatchExtract_pdf (env : ExtractorEnv) (file : UploadedFile) (s : SysState)
    (h1 : file.mimetype = "application/pdf") :
    dispatchExtract env file s = extractFromPDF env file.path s := by
  unfold dispatchExtract
  rw [if_pos h1]

lemma dispatchExtract_image (env : ExtractorEnv) (file : UploadedFile) (s : SysState)
    (h1 : file.mimetype ≠ "application/pdf")
    (h2 : strStartsWith file.mimetype "image/" = true) :
    dispatchExtract env file s = extractFromImage env file.path s := by
  unfold dispatchExtract
  rw [if_neg h1, if_pos h2]

lemma dispatchExtract_text (env : ExtractorEnv) (file : UploadedFile) (s : SysState)
    (h1 : file.mimetype ≠ "application/pdf")
    (h2 : strStartsWith file.mimetype "image/" = false)
    (h3 : file.mimetype = "text/plain") :
    dispatchExtract env file s = extractFromText file.path s := by
  unfold dispatchExtract
  rw [if_neg h1, if_neg (by simp [h2]), if_pos h3]

lemma dispatchExtract_unsupported (env : ExtractorEnv) (file : UploadedFile) (s : SysState)
    (h1 : file.mimetype ≠ "application/pdf")
    (h2 : strStartsWith file.mimetype "image/" = false)
    (h3 : file.mimetype ≠ "text/plain") :
    dispatchExtract env file s =
      (.error ("Unsupported file type: " ++ file.mimetype), s) := by
  unfold dispatchExtract
  rw [if_neg h1, if_neg (by simp [h2]), if_neg h3]

lemma dispatchExtract_fst_congr (env : ExtractorEnv) (file : UploadedFile)
    {s s' : SysState} (h : s'.files = s.files) :
    (dispatchExtract env file s').1 = (dispatchExtract env file s).1 := by
  unfold dispatchExtract
  by_cases h1 : file.mimetype = "application/pdf"
  · simp only [h1, if_true, extractFromPDF, readFileSync_fst_congr file.path h]
  · by_cases h2 : strStartsWith file.mimetype "image/"
    · simp only [h1, if_false, h2, if_true, extractFromImage,
        readFileSync_fst_congr file.path h]
    · by_cases h3 : file.mimetype = "text/plain"
      · have hip : strStartsWith "text/plain" "image/" = false := by decide
        simp [h1, h2, h3, hip, extractFromText, readFileSync_fst_congr file.path h]
      · simp only [h1, if_false, h2, Bool.false_eq_true, h3]

/-- The success/failure outcome of the orchestrator depends on the filesystem
only through the file contents — in particular not on whether cleanup will
succeed. -/
lemma extractFromFile_fst_congr (env : ExtractorEnv) (file : UploadedFile)
    {s s' : SysState} (h : s'.files = s.files) :
    (extractFromFile env file s').1 = (extractFromFile env file s).1 := by
  show (finishExtract file.path (dispatchExtract env file s')).1 = _
  unfold finishExtract
  rw [dispatchExtract_fst_congr env file h]
  rfl

/-- The state after dispatch is the input state with at most one read
recorded. -/
lemma dispatchExtract_snd (env : ExtractorEnv) (file : UploadedFile) (s : SysState) :
    (dispatchExtract env file s).2 = s ∨
      (dispatchExtract env file s).2 = { s with readTrace := s.readTrace ++ [file.path] } := by
  unfold dispatchExtract
  by_cases h1 : file.mimetype = "application/pdf"
  · right; simp only [h1, if_true, extractFromPDF, readFileSync_snd]
  · by_cases h2 : strStartsWith file.mimetype "image/"
    · right; simp only [h1, if_false, h2, if_true, extractFromImage, readFileSync_snd]
    · by_cases h3 : file.mimetype = "text/plain"
      · right
        have hip : strStartsWith "text/plain" "image/" = false := by decide
        simp [h1, h2, h3, hip, extractFromText, readFileSync_snd]
      · left; simp only [h1, if_false, h2, Bool.false_eq_true, h3]

/-- After `removeFile`, the path is gone. -/
lemma lookupFile_removeFile (fs : List (String × String)) (p : String) :
    lookupFile (removeFile fs p) p = none := by
  induction fs with
  | nil => rfl
  | cons e rest ih =>
    rcases e with ⟨q, c⟩
    unfold removeFile
    by_cases h : q = p
    · simpa [h] using ih
    · simpa [lookupFile, h] using ih

/-- Successful cleanup: when the file exists and unlinking does not fail,
`cleanupFile` removes the file and records exactly one delete attempt. -/
lemma cleanupFile_success (p : String) (s : SysState)
    (hex : (lookupFile s.files p).isSome = true) (herr : p ∉ s.unlinkErrs) :
    cleanupFile p s =
      { s with files := removeFile s.files p,
               unlinkTrace := s.unlinkTrace ++ [p] } := by
  unfold cleanupFile cleanupFileCaught cleanupFileTry existsSync unlinkSync
  simp only [hex, if_true, herr, if_false]

/-- `cleanupFile` never touches the read trace. -/
lemma cleanupFile_readTrace (p : String) (s : SysState) :
    (cleanupFile p s).readTrace = s.readTrace := by
  unfold cleanupFile cleanupFileCaught cleanupFileTry existsSync unlinkSync
  by_cases hex : (lookupFile s.files p).isSome
  · by_cases herr : p ∈ s.unlinkErrs
    · simp only [hex, if_true, herr, if_false]
    · simp only [hex, if_true, herr, if_false]
  · simp only [hex, Bool.false_eq_true, if_false]

/-- A wrapped extractor error message is never empty. -/
lemma wrapErr_error_ne {pre : String} {r : Except String String} {m : String}
    (hpre : pre ≠ "") (h : wrapErr pre r = .error m) : m ≠ "" := by
  cases r with
  | ok t => simp [wrapErr] at h
  | error e =>
    simp only [wrapErr, Except.error.injEq] at h
    subst h
    intro hcon
    apply hpre
    apply String.ext
    have := congrArg String.data hcon
    rw [String.data_append] at this
    exact (List.append_eq_nil.mp this).1

/-- Every error produced by the dispatch step has a non-empty message. -/
lemma dispatchExtract_error_ne (env : ExtractorEnv) (file : UploadedFile)
    (s : SysState) {m : String}
    (h : (dispatchExtract env file s).1 = .error m) : m ≠ "" := by
  unfold dispatchExtract at h
  by_cases h1 : file.mimetype = "application/pdf"
  · rw [if_pos h1] at h
    exact wrapErr_error_ne (by decide) h
  · rw [if_neg h1] at h
    by_cases h2 : strStartsWith file.mimetype "image/" = true
    · rw [if_pos h2] at h
      exact wrapErr_error_ne (by decide) h
    · rw [if_neg h2] at h
      by_cases h3 : file.mimetype = "text/plain"
      · rw [if_pos h3] at h
        exact wrapErr_error_ne (by decide) h
      · rw [if_neg h3] at h
        simp only [Except.error.injEq] at h
        subst h
        intro hcon
        have := congrArg String.data hcon
        rw [String.data_append] at this
        exact absurd (List.append_eq_nil.mp this).1 (by decide)

/-- The orchestrator result in terms of the dispatch result. -/
lemma extractFromFile_fst (env : ExtractorEnv) (file : UploadedFile) (s : SysState) :
    (extractFromFile env file s).1 =
      (match (dispatchExtract env file s).1 with
       | .ok c => .ok (cleanContent (some c))
       | .error e => .error e) := rfl

/-- Every error produced by the orchestrator has a non-empty message. -/
lemma extractFromFile_error_ne (env : ExtractorEnv) (file : UploadedFile)
    (s : SysState) {m : String}
    (h : (extractFromFile env file s).1 = .error m) : m ≠ "" := by
  rw [extractFromFile_fst] at h
  cases hd : (dispatchExtract env file s).1 with
  | ok c => rw [hd] at h; simp at h
  | error e =>
    rw [hd] at h
    simp only [Except.error.injEq] at h
    subst h
    exact dispatchExtract_error_ne env file s hd

/-! ## Claims about the orchestrator, lifecycle manager and HTTP boundary -/

/-- C2: for every `UploadedFile` whose temporary file exists (and whose
deletion the filesystem does not spuriously refuse), `extractFromFile`
deletes the file at its path exactly once — one unlink attempt is recorded —
and afterwards the file no longer exists, whether extraction succeeded or
failed. -/
theorem extract_deletes_file_exactly_once (env : ExtractorEnv) (file : UploadedFile)
    (s : SysState) (hex : (lookupFile s.files file.path).isSome = true)
    (herr : file.path ∉ s.unlinkErrs) :
    lookupFile (extractFromFile env file s).2.files file.path = none ∧
    (extractFromFile env file s).2.unlinkTrace = s.unlinkTrace ++ [file.path] := by
  have hsnd : (extractFromFile env file s).2 =
      cleanupFile file.path (dispatchExtract env file s).2 := rfl
  rcases dispatchExtract_snd env file s with hd | hd
  · rw [hsnd, hd, cleanupFile_success _ _ hex herr]
    exact ⟨lookupFile_removeFile _ _, rfl⟩
  · rw [hsnd, hd]
    have hex2 : (lookupFile
        ({ s with readTrace := s.readTrace ++ [file.path] } : SysState).files
          file.path).isSome = true := hex
    have herr2 : file.path ∉
        ({ s with readTrace := s.readTrace ++ [file.path] } : SysState).unlinkErrs := herr
    rw [cleanupFile_success _ _ hex2 herr2]
    exact ⟨lookupFile_removeFile _ _, rfl⟩

/-- Witness for C2: a concrete successful text extraction deletes the file
and records exactly one unlink. -/
theorem extract_deletes_file_exactly_once_witness :
    (lookupFile (⟨[("up/t1", "hi")], [], [], []⟩ : SysState).files "up/t1").isSome = true ∧
    "up/t1" ∉ (⟨[("up/t1", "hi")], [], [], []⟩ : SysState).unlinkErrs ∧
    lookupFile (extractFromFile ⟨fun _ => .ok "", fun _ => .ok ""⟩
        ⟨"up/t1", "text/plain", "a.txt"⟩ ⟨[("up/t1", "hi")], [], [], []⟩).2.files "up/t1" = none ∧
    (extractFromFile ⟨fun _ => .ok "", fun _ => .ok ""⟩
        ⟨"up/t1", "text/plain", "a.txt"⟩ ⟨[("up/t1", "hi")], [], [], []⟩).2.unlinkTrace =
      [] ++ ["up/t1"] := by
  refine ⟨by decide, by decide, ?_⟩
  exact extract_deletes_file_exactly_once ⟨fun _ => .ok "", fun _ => .ok ""⟩
    ⟨"up/t1", "text/plain", "a.txt"⟩ ⟨[("up/t1", "hi")], [], [], []⟩ (by decide) (by decide)

/-- C3: dispatch is by exact match for `application/pdf`, prefix match for
`image/`, and exact match for `text/plain`; on any other declared media type
`extractFromFile` fails immediately with the `Unsupported file type` error
and no read of the file is ever attempted. -/
theorem extract_unsupported_media_type (env : ExtractorEnv) (file : UploadedFile)
    (s : SysState) :
    (file.mimetype ≠ "application/pdf" →
     strStartsWith file.mimetype "image/" = false →
     file.mimetype ≠ "text/plain" →
     (extractFromFile env file s).1 = .error ("Unsupported file type: " ++ file.mimetype) ∧
     (extractFromFile env file s).2.readTrace = s.readTrace) ∧
    (file.mimetype = "application/pdf" →
     extractFromFile env file s = finishExtract file.path (extractFromPDF env file.path s)) ∧
    (file.mimetype ≠ "application/pdf" →
     strStartsWith file.mimetype "image/" = true →
     extractFromFile env file s = finishExtract file.path (extractFromImage env file.path s)) ∧
    (file.mimetype ≠ "application/pdf" →
     strStartsWith file.mimetype "image/" = false →
     file.mimetype = "text/plain" →
     extractFromFile env file s = finishExtract file.path (extractFromText file.path s)) := by
  refine ⟨?_, ?_, ?_, ?_⟩
  · intro h1 h2 h3
    have hd := dispatchExtract_unsupported env file s h1 h2 h3
    constructor
    · show (finishExtract file.path (dispatchExtract env file s)).1 = _
      rw [hd]
      rfl
    · show (finishExtract file.path (dispatchExtract env file s)).2.readTrace = _
      rw [hd]
      show (cleanupFile file.path s).readTrace = s.readTrace
      exact cleanupFile_readTrace file.path s
  · intro h1
    show finishExtract file.path (dispatchExtract env file s) = _
    rw [dispatchExtract_pdf env file s h1]
  · intro h1 h2
    show finishExtract file.path (dispatchExtract env file s) = _
    rw [dispatchExtract_image env file s h1 h2]
  · intro h1 h2 h3
    show finishExtract file.path (dispatchExtract env file s) = _
    rw [dispatchExtract_text env file s h1 h2 h3]

/-- Witness for C3: with `application/json` the orchestrator fails with
`Unsupported file type: application/json` and attempts no read. -/
theorem extract_unsupported_media_type_witness :
    ("application/json" : String) ≠ "application/pdf" ∧
    strStartsWith "application/json" "image/" = false ∧
    ("application/json" : String) ≠ "text/plain" ∧
    (extractFromFile ⟨fun _ => .ok "", fun _ => .ok ""⟩
        ⟨"up/t2", "application/json", "a.json"⟩ ⟨[("up/t2", "x")], [], [], []⟩).1 =
      .error ("Unsupported file type: " ++ "application/json") ∧
    (extractFromFile ⟨fun _ => .ok "", fun _ => .ok ""⟩
        ⟨"up/t2", "application/json", "a.json"⟩ ⟨[("up/t2", "x")], [], [], []⟩).2.readTrace =
      (⟨[("up/t2", "x")], [], [], []⟩ : SysState).readTrace := by
  refine ⟨by decide, by decide, by decide, ?_⟩
  exact (extract_unsupported_media_type ⟨fun _ => .ok "", fun _ => .ok ""⟩
    ⟨"up/t2", "application/json", "a.json"⟩ ⟨[("up/t2", "x")], [], [], []⟩).1
    (by decide) (by decide) (by decide)

/-- C4: on a plain-text file containing `"  Hello   World  \n\n\n\nBye  "`
the orchestrator returns exactly `"Hello World\n\nBye"`; the plain-text
extractor itself returns the file content verbatim (normalization is applied
afterwards by the orchestrator). -/
theorem extract_plain_text_example (env : ExtractorEnv) (p n : String) (s : SysState)
    (h : lookupFile s.files p = some "  Hello   World  \n\n\n\nBye  ") :
    (extractFromFile env ⟨p, "text/plain", n⟩ s).1 = .ok "Hello World\n\nBye" ∧
    (∀ (q : String) (s' : SysState) (c : String),
      lookupFile s'.files q = some c → (extractFromText q s').1 = .ok c) := by
  constructor
  · have hd : (dispatchExtract env ⟨p, "text/plain", n⟩ s).1 =
        .ok "  Hello   World  \n\n\n\nBye  " := by
      rw [dispatchExtract_text env ⟨p, "text/plain", n⟩ s
        (show ("text/plain" : String) ≠ "application/pdf" by decide)
        (show strStartsWith "text/plain" "image/" = false by decide) rfl]
      show wrapErr _ (readFileSync p s).1 = _
      rw [readFileSync_fst, h]
      rfl
    rw [extractFromFile_fst, hd]
    show Except.ok (cleanContent (some "  Hello   World  \n\n\n\nBye  ")) = _
    decide
  · intro q s' c h'
    show wrapErr _ (readFileSync q s').1 = _
    rw [readFileSync_fst, h']
    rfl

/-- Witness for C4: the concrete run. -/
theorem extract_plain_text_example_witness :
    lookupFile [("up/t1", "  Hello   World  \n\n\n\nBye  ")] "up/t1" =
      some "  Hello   World  \n\n\n\nBye  " ∧
    (extractFromFile ⟨fun _ => .ok "", fun _ => .ok ""⟩ ⟨"up/t1", "text/plain", "a.txt"⟩
        ⟨[("up/t1", "  Hello   World  \n\n\n\nBye  ")], [], [], []⟩).1 =
      .ok "Hello World\n\nBye" := by
  refine ⟨by decide, ?_⟩
  exact (extract_plain_text_example ⟨fun _ => .ok "", fun _ => .ok ""⟩ "up/t1" "a.txt"
    ⟨[("up/t1", "  Hello   World  \n\n\n\nBye  ")], [], [], []⟩ (by decide)).1

/-- C6: `cleanupFile` never raises to its caller — every underlying deletion
error is swallowed — and the success/failure outcome of the enclosing
`extractFromFile` call does not depend on injected deletion failures. -/
theorem cleanup_never_raises (p : String) (s : SysState) :
    (cleanupFileCaught p s).1 = none ∧
    (∀ (env : ExtractorEnv) (file : UploadedFile),
      (extractFromFile env file { s with unlinkErrs := [] }).1 =
        (extractFromFile env file s).1) := by
  constructor
  · unfold cleanupFileCaught
    rcases h : cleanupFileTry p s with ⟨r, s1⟩
    cases r <;> simp
  · intro env file
    exact extractFromFile_fst_congr env file rfl

/-- C8: an orchestrator error reaches the HTTP boundary with its message
unchanged, as the error envelope `{success: false, error: message}`; and the
outcome does not depend on cleanup failures (cleanup errors never
propagate). -/
theorem error_propagates_unchanged (env : ExtractorEnv) (file : UploadedFile)
    (s : SysState) (m : String)
    (h : (extractFromFile env file s).1 = .error m) :
    (uploadRouteHandle env file s).1 = .failure m ∧
    (extractFromFile env file { s with unlinkErrs := [] }).1 =
      (extractFromFile env file s).1 := by
  constructor
  · have hne : m ≠ "" := extractFromFile_error_ne env file s h
    unfold uploadRouteHandle
    rcases he : extractFromFile env file s with ⟨r, s1⟩
    rw [he] at h
    simp only at h
    subst h
    simp [errorMiddleware, hne]
  · exact extractFromFile_fst_congr env file rfl

/-- Witness for C8: the unsupported-media-type error message reaches the
envelope unchanged. -/
theorem error_propagates_unchanged_witness :
    (extractFromFile ⟨fun _ => .ok "", fun _ => .ok ""⟩
        ⟨"up/t2", "application/json", "a.json"⟩ ⟨[("up/t2", "x")], [], [], []⟩).1 =
      .error "Unsupported file type: application/json" ∧
    (uploadRouteHandle ⟨fun _ => .ok "", fun _ => .ok ""⟩
        ⟨"up/t2", "application/json", "a.json"⟩ ⟨[("up/t2", "x")], [], [], []⟩).1 =
      .failure "Unsupported file type: application/json" := by
  refine ⟨by rfl, ?_⟩
  exact (error_propagates_unchanged ⟨fun _ => .ok "", fun _ => .ok ""⟩
    ⟨"up/t2", "application/json", "a.json"⟩ ⟨[("up/t2", "x")], [], [], []⟩
    "Unsupported file type: application/json" (by rfl)).1

/-- C7: the upload collaborator accepts a file exactly when its media type is
in the allow-list and its size is at most the configured limit, whose default
is 10 MiB when `MAX_FILE_SIZE` is unset; a rejected file never reaches the
core extractor. -/
theorem upload_accepts_iff (mt : String) (size : Nat) (envVar : Option Nat) :
    (uploadAccepts mt size envVar = true ↔
      mt ∈ allowedTypes ∧ size ≤ maxFileSize envVar) ∧
    maxFileSize none = 10 * 1024 * 1024 ∧
    (∀ (env : ExtractorEnv) (file : UploadedFile) (s : SysState),
      uploadAccepts file.mimetype size envVar = false →
      handleFileUpload env file size envVar s =
        (.failure "Invalid file type. Allowed: PDF, Images (JPEG, PNG, GIF, WebP), Text files",
         s)) := by
  refine ⟨?_, rfl, ?_⟩
  · unfold uploadAccepts fileFilter
    simp
  · intro env file s hacc
    unfold handleFileUpload
    rw [hacc]
    simp [errorMiddleware]

/-- Witness for C7: `application/json` is rejected without running the
extractor. -/
theorem upload_accepts_iff_witness :
    uploadAccepts "application/json" 5 none = false ∧
    handleFileUpload ⟨fun _ => .ok "", fun _ => .ok ""⟩
        ⟨"up/t2", "application/json", "a.json"⟩ 5 none ⟨[("up/t2", "x")], [], [], []⟩ =
      (.failure "Invalid file type. Allowed: PDF, Images (JPEG, PNG, GIF, WebP), Text files",
       ⟨[("up/t2", "x")], [], [], []⟩) := by
  refine ⟨by decide, ?_⟩
  exact (upload_accepts_iff "application/json" 5 none).2.2
    ⟨fun _ => .ok "", fun _ => .ok ""⟩ ⟨"up/t2", "application/json", "a.json"⟩
    ⟨[("up/t2", "x")], [], [], []⟩ (by decide)

/-- C9: the normalizer is total — it returns a string on every input — and
returns the empty string on an absent (`null`/`undefined`) or empty input. -/
theorem cleanContent_total :
    cleanContent none = "" ∧ cleanContent (some "") = "" ∧
    ∀ s : String, ∃ t : String, cleanContent (some s) = t :=
  ⟨rfl, rfl, fun s => ⟨cleanContent (some s), rfl⟩⟩

/-- C5 counterexample: `"za   b\n\n\n\nc"` contains the substring
`"a   b\n\n\n\nc"` but does not normalize to `"a b\n\nc"` (it normalizes to
`"za b\n\nc"`), so the claim quantified over all strings containing the
substring is false. -/
theorem normalize_contains_counterexample :
    ("a   b\n\n\n\nc".data <:+: "za   b\n\n\n\nc".data) ∧
    cleanContent (some "za   b\n\n\n\nc") ≠ "a b\n\nc" ∧
    cleanContent (some "za   b\n\n\n\nc") = "za b\n\nc" := by
  refine ⟨by decide, by decide, by decide⟩

/-- C5 amended: on the input that is exactly `"a   b\n\n\n\nc"`,
normalization yields `"a b\n\nc"` — runs of spaces collapse to one space and
the run of four newlines collapses to exactly two. -/
theorem normalize_example :
    cleanContent (some "a   b\n\n\n\nc") = "a b\n\nc" := by decide

/-! ## Theory of the normalizer

The normalizer pipeline `cleanCore` is analysed stage by stage.  The goal is
the shape of its output (`CleanShape`) and the behaviour of a second and a
third application. -/

/-! ### `splitNL` and `joinNL` -/

lemma splitNL_ne_nil (s : List Char) : splitNL s ≠ [] := by
  cases s with
  | nil => simp [splitNL]
  | cons c cs =>
    unfold splitNL
    by_cases h : c = '\n'
    · simp [h]
    · rw [if_neg h]
      cases splitNL cs <;> simp

lemma splitNL_cons_nl (t : List Char) : splitNL ('\n' :: t) = [] :: splitNL t := by
  simp only [splitNL, if_true]

lemma splitNL_cons_ne {c : Char} (h : c ≠ '\n') (cs : List Char) :
    ∃ l ls, splitNL cs = l :: ls ∧ splitNL (c :: cs) = (c :: l) :: ls := by
  rcases hd : splitNL cs with _ | ⟨l, ls⟩
  · exact absurd hd (splitNL_ne_nil cs)
  · refine ⟨l, ls, rfl, ?_⟩
    unfold splitNL
    rw [if_neg h, hd]

lemma joinNL_cons {l : List Char} {ls : List (List Char)} (h : ls ≠ []) :
    joinNL (l :: ls) = l ++ '\n' :: joinNL ls := by
  cases ls with
  | nil => exact absurd rfl h
  | cons l2 ls2 => rfl

lemma joinNL_splitNL (s : List Char) : joinNL (splitNL s) = s := by
  induction s with
  | nil => rfl
  | cons c cs ih =>
    by_cases h : c = '\n'
    · subst h
      rw [splitNL_cons_nl, joinNL_cons (splitNL_ne_nil cs), List.nil_append, ih]
    · rcases splitNL_cons_ne h cs with ⟨l, ls, hcs, hccs⟩
      rw [hccs]
      cases ls with
      | nil =>
        have : joinNL (splitNL cs) = cs := ih
        rw [hcs] at this
        simpa [joinNL] using congrArg (c :: ·) this
      | cons l2 ls2 =>
        rw [joinNL_cons (by simp)]
        have : joinNL (splitNL cs) = cs := ih
        rw [hcs, joinNL_cons (by simp)] at this
        rw [List.cons_append, this]

lemma noNL_mem_splitNL {s : List Char} : ∀ l ∈ splitNL s, '\n' ∉ l := by
  induction s with
  | nil => intro l hl; simp [splitNL] at hl; simp [hl]
  | cons c cs ih =>
    by_cases h : c = '\n'
    · subst h
      rw [splitNL_cons_nl]
      intro l hl
      rcases List.mem_cons.1 hl with hl | hl
      · subst hl; simp
      · exact ih l hl
    · rcases splitNL_cons_ne h cs with ⟨l0, ls, hcs, hccs⟩
      rw [hccs]
      intro l hl
      rcases List.mem_cons.1 hl with hl | hl
      · subst hl
        intro hmem
        rcases List.mem_cons.1 hmem with hmem | hmem
        · exact h hmem.symm
        · exact ih l0 (by rw [hcs]; exact List.mem_cons_self l0 ls) hmem
      · exact ih l (by rw [hcs]; exact List.mem_cons_of_mem l0 hl)

lemma splitNL_noNL {s : List Char} (h : '\n' ∉ s) : splitNL s = [s] := by
  induction s with
  | nil => rfl
  | cons c cs ih =>
    have hc : c ≠ '\n' := fun hc => h (by rw [hc]; exact List.mem_cons_self _ _)
    rcases splitNL_cons_ne hc cs with ⟨l0, ls, hcs, hccs⟩
    have : splitNL cs = [cs] := ih (fun hm => h (List.mem_cons_of_mem c hm))
    rw [this] at hcs
    obtain ⟨h1, h2⟩ : l0 = cs ∧ ls = [] := by
      constructor <;> [exact (List.cons.injEq .. ▸ hcs).1.symm; exact (List.cons.injEq .. ▸ hcs).2.symm]
    subst h1; subst h2
    rw [hccs]

lemma splitNL_append_noNL {l : List Char} (h : '\n' ∉ l) (t : List Char) :
    splitNL (l ++ '\n' :: t) = l :: splitNL t := by
  induction l with
  | nil =>
    show splitNL ([] ++ '\n' :: t) = [] :: splitNL t
    rw [List.nil_append, splitNL_cons_nl]
  | cons c cs ih =>
    have hc : c ≠ '\n' := fun hc => h (by rw [hc]; exact List.mem_cons_self _ _)
    have ih2 := ih (fun hm => h (List.mem_cons_of_mem c hm))
    rcases splitNL_cons_ne hc (cs ++ '\n' :: t) with ⟨l0, ls, hcs, hccs⟩
    rw [ih2] at hcs
    obtain ⟨h1, h2⟩ : l0 = cs ∧ ls = splitNL t := by
      constructor <;> [exact (List.cons.injEq .. ▸ hcs).1.symm; exact (List.cons.injEq .. ▸ hcs).2.symm]
    subst h1; subst h2
    rw [List.cons_append, hccs]

lemma splitNL_joinNL {ls : List (List Char)} (hne : ls ≠ [])
    (h : ∀ l ∈ ls, '\n' ∉ l) : splitNL (joinNL ls) = ls := by
  induction ls with
  | nil => exact absurd rfl hne
  | cons l ls2 ih =>
    cases ls2 with
    | nil =>
      show splitNL (joinNL [l]) = [l]
      exact splitNL_noNL (h l (List.mem_cons_self _ _))
    | cons l2 ls3 =>
      rw [joinNL_cons (by simp),
        splitNL_append_noNL (h l (List.mem_cons_self _ _)),
        ih (by simp) (fun x hx => h x (List.mem_cons_of_mem l hx))]

/-! ### `trimChars` -/

lemma head_not_of_dropWhile {p : Char → Bool} {l : List Char} {c : Char}
    (h : (l.dropWhile p).head? = some c) : p c = false := by
  have hd := List.head?_dropWhile_not p l
  rw [h] at hd
  exact hd

lemma prefix_head? {u v : List Char} (h : u <+: v) (hne : u ≠ []) :
    v.head? = u.head? := by
  rcases h with ⟨t, rfl⟩
  cases u with
  | nil => exact absurd rfl hne
  | cons c cs => rfl

/-- `trimChars l` is a prefix of `l.dropWhile isWS`. -/
lemma trim_prefix_dropWhile (l : List Char) :
    trimChars l <+: l.dropWhile isWS := by
  unfold trimChars
  have h1 : ((l.dropWhile isWS).reverse.dropWhile isWS) <:+ (l.dropWhile isWS).reverse :=
    List.dropWhile_suffix isWS
  rw [← List.reverse_suffix, List.reverse_reverse]
  exact h1

lemma trim_part (l : List Char) : trimChars l <:+: l :=
  (trim_prefix_dropWhile l).isInfix.trans (List.dropWhile_suffix isWS).isInfix

lemma mem_trimChars {c : Char} {l : List Char} (h : c ∈ trimChars l) : c ∈ l :=
  (trim_part l).sublist.subset h

lemma trim_head_not {l : List Char} {c : Char}
    (h : (trimChars l).head? = some c) : isWS c = false := by
  have hne : trimChars l ≠ [] := by
    intro hcon; rw [hcon] at h; exact Option.noConfusion h
  have := prefix_head? (trim_prefix_dropWhile l) hne
  exact head_not_of_dropWhile (by rw [this, h])

lemma trim_last_not {l : List Char} {c : Char}
    (h : (trimChars l).getLast? = some c) : isWS c = false := by
  unfold trimChars at h
  rw [List.getLast?_reverse] at h
  exact head_not_of_dropWhile h

lemma trim_eq_self {l : List Char}
    (h1 : ∀ c, l.head? = some c → isWS c = false)
    (h2 : ∀ c, l.getLast? = some c → isWS c = false) : trimChars l = l := by
  have hX : l.dropWhile isWS = l := by
    cases l with
    | nil => rfl
    | cons c cs =>
      rw [List.dropWhile_cons, if_neg]
      rw [h1 c rfl]
      simp
  unfold trimChars
  rw [hX]
  have hY : l.reverse.dropWhile isWS = l.reverse := by
    rcases hr : l.reverse with _ | ⟨c, t⟩
    · rfl
    · have : l.getLast? = some c := by
        rw [← List.head?_reverse, hr]; rfl
      rw [List.dropWhile_cons, if_neg]
      rw [h2 c this]
      simp
  rw [hY, List.reverse_reverse]

lemma trim_idem (l : List Char) : trimChars (trimChars l) = trimChars l :=
  trim_eq_self (fun _ h => trim_head_not h) (fun _ h => trim_last_not h)

lemma trim_noNL {l : List Char} (h : '\n' ∉ l) : '\n' ∉ trimChars l :=
  fun hmem => h (mem_trimChars hmem)

/-! ### The line-trimming stage -/

lemma splitNL_stage3 (s : List Char) :
    splitNL (stage3 s) = (splitNL s).map trimChars := by
  unfold stage3
  apply splitNL_joinNL
  · simp [splitNL_ne_nil s]
  · intro l hl
    rcases List.mem_map.1 hl with ⟨l0, hl0, rfl⟩
    exact trim_noNL (noNL_mem_splitNL l0 hl0)

lemma stage3_linesTrimmed (s : List Char) : LinesTrimmed (stage3 s) := by
  intro l hl
  rw [splitNL_stage3] at hl
  rcases List.mem_map.1 hl with ⟨l0, _, rfl⟩
  exact trim_idem l0

lemma stage3_fix {s : List Char} (h : LinesTrimmed s) : stage3 s = s := by
  unfold stage3
  have hmap : (splitNL s).map trimChars = splitNL s := by
    have : (splitNL s).map trimChars = (splitNL s).map id :=
      List.map_congr_left (fun l hl => h l hl)
    rw [this, List.map_id]
  rw [hmap, joinNL_splitNL]

/-! ### The space/tab-collapsing stage -/

lemma collapseHTAux_cons_ht_true {c : Char} (h : isHT c = true) (cs : List Char) :
    collapseHTAux true (c :: cs) = collapseHTAux true cs := by
  simp [collapseHTAux, h]

lemma collapseHTAux_cons_ht_false {c : Char} (h : isHT c = true) (cs : List Char) :
    collapseHTAux false (c :: cs) = ' ' :: collapseHTAux true cs := by
  simp [collapseHTAux, h]

lemma collapseHTAux_cons_not {c : Char} (h : isHT c = false) (b : Bool) (cs : List Char) :
    collapseHTAux b (c :: cs) = c :: collapseHTAux false cs := by
  simp [collapseHTAux, h]

lemma collapseHTAux_noTab (s : List Char) : ∀ b, '\t' ∉ collapseHTAux b s := by
  induction s with
  | nil => intro b; simp [collapseHTAux]
  | cons c cs ih =>
    intro b
    by_cases h : isHT c
    · cases b with
      | true => rw [collapseHTAux_cons_ht_true h]; exact ih true
      | false =>
        rw [collapseHTAux_cons_ht_false h]
        intro hmem
        rcases List.mem_cons.1 hmem with hmem | hmem
        · exact absurd hmem (by decide)
        · exact ih true hmem
    · rw [collapseHTAux_cons_not (by simpa using h)]
      intro hmem
      rcases List.mem_cons.1 hmem with hmem | hmem
      · rw [← hmem] at h
        exact h (by decide)
      · exact ih false hmem

lemma collapseHTAux_head_true (s : List Char) :
    ∀ c, (collapseHTAux true s).head? = some c → isHT c = false := by
  induction s with
  | nil => intro c h; exact Option.noConfusion h
  | cons d cs ih =>
    intro c h
    by_cases hd : isHT d
    · rw [collapseHTAux_cons_ht_true hd] at h
      exact ih c h
    · rw [collapseHTAux_cons_not (by simpa using hd)] at h
      rw [List.head?_cons, Option.some.injEq] at h
      rw [← h]
      simpa using hd

lemma collapseHTAux_chain (s : List Char) : ∀ b, List.Chain' NDS (collapseHTAux b s) := by
  induction s with
  | nil => intro b; simp [collapseHTAux]
  | cons c cs ih =>
    intro b
    by_cases h : isHT c
    · cases b with
      | true => rw [collapseHTAux_cons_ht_true h]; exact ih true
      | false =>
        rw [collapseHTAux_cons_ht_false h]
        refine List.chain'_cons'.mpr ⟨?_, ih true⟩
        intro y hy
        have := collapseHTAux_head_true cs y hy
        intro ⟨_, hy2⟩
        rw [hy2] at this
        exact absurd this (by decide)
    · rw [collapseHTAux_cons_not (by simpa using h)]
      refine List.chain'_cons'.mpr ⟨?_, ih false⟩
      intro y hy
      intro ⟨hc2, _⟩
      rw [hc2] at h
      exact h (by decide)

lemma collapseHTAux_fix (s : List Char) :
    ∀ b, '\t' ∉ s → List.Chain' NDS s → (b = true → s.head? ≠ some ' ') →
      collapseHTAux b s = s := by
  induction s with
  | nil => intro b _ _ _; rfl
  | cons c cs ih =>
    intro b h1 h2 hb
    by_cases hc : isHT c
    · have hcsp : c = ' ' := by
        have : c = ' ' ∨ c = '\t' := by simpa [isHT] using hc
        rcases this with h | h
        · exact h
        · exact absurd (h ▸ List.mem_cons_self c cs) h1
      subst hcsp
      have hbf : b = false := by
        cases b with
        | false => rfl
        | true => exact absurd rfl (fun h => hb h rfl)
      subst hbf
      rw [collapseHTAux_cons_ht_false hc]
      have htail : collapseHTAux true cs = cs := by
        apply ih true (fun hm => h1 (List.mem_cons_of_mem _ hm)) h2.tail
        intro _ hhd
        rcases List.chain'_cons'.mp h2 with ⟨hy, _⟩
        exact (hy ' ' hhd) ⟨rfl, rfl⟩
      rw [htail]
    · rw [collapseHTAux_cons_not (by simpa using hc)]
      rw [ih false (fun hm => h1 (List.mem_cons_of_mem _ hm)) h2.tail (by simp)]

/-! ### The newline-capping stage -/

lemma capNLAux_cons_nl_lt {n : Nat} (h : n < 2) (cs : List Char) :
    capNLAux n ('\n' :: cs) = '\n' :: capNLAux (n + 1) cs := by
  simp [capNLAux, h]

lemma capNLAux_cons_nl_ge {n : Nat} (h : ¬n < 2) (cs : List Char) :
    capNLAux n ('\n' :: cs) = capNLAux n cs := by
  simp [capNLAux, h]

lemma capNLAux_cons_ne {c : Char} (h : c ≠ '\n') (n : Nat) (cs : List Char) :
    capNLAux n (c :: cs) = c :: capNLAux 0 cs := by
  simp [capNLAux, h]

lemma capNLAux_head_zero (s : List Char) : (capNLAux 0 s).head? = s.head? := by
  cases s with
  | nil => rfl
  | cons c cs =>
    by_cases hc : c = '\n'
    · subst hc
      rw [capNLAux_cons_nl_lt (by omega)]
      rfl
    · rw [capNLAux_cons_ne hc]
      rfl

lemma capNLAux_mem {c : Char} {s : List Char} :
    ∀ n, c ∈ capNLAux n s → c ∈ s := by
  induction s with
  | nil => intro n h; simp [capNLAux] at h
  | cons d ds ih =>
    intro n h
    by_cases hd : d = '\n'
    · subst hd
      by_cases hn : n < 2
      · rw [capNLAux_cons_nl_lt hn] at h
        rcases List.mem_cons.1 h with h | h
        · rw [h]; exact List.mem_cons_self _ _
        · exact List.mem_cons_of_mem _ (ih (n + 1) h)
      · rw [capNLAux_cons_nl_ge hn] at h
        exact List.mem_cons_of_mem _ (ih n h)
    · rw [capNLAux_cons_ne hd] at h
      rcases List.mem_cons.1 h with h | h
      · rw [h]; exact List.mem_cons_self _ _
      · exact List.mem_cons_of_mem _ (ih 0 h)

lemma capNLAux_chain {s : List Char} (h : List.Chain' NDS s) :
    ∀ n, List.Chain' NDS (capNLAux n s) := by
  induction s with
  | nil => intro n; simp [capNLAux]
  | cons c cs ih =>
    intro n
    by_cases hc : c = '\n'
    · subst hc
      by_cases hn : n < 2
      · rw [capNLAux_cons_nl_lt hn]
        refine List.chain'_cons'.mpr ⟨?_, ih h.tail (n + 1)⟩
        intro y _
        intro ⟨ha, _⟩
        exact absurd ha (by decide)
      · rw [capNLAux_cons_nl_ge hn]
        exact ih h.tail n
    · rw [capNLAux_cons_ne hc]
      refine List.chain'_cons'.mpr ⟨?_, ih h.tail 0⟩
      intro y hy
      rw [capNLAux_head_zero] at hy
      exact (List.chain'_cons'.mp h).1 y hy

lemma leadNL_cons_nl (t : List Char) : leadNL ('\n' :: t) = leadNL t + 1 := by
  simp [leadNL, List.takeWhile_cons]

lemma leadNL_cons_ne {c : Char} (h : c ≠ '\n') (t : List Char) :
    leadNL (c :: t) = 0 := by
  simp [leadNL, List.takeWhile_cons, h]

lemma tripleNLFree_cons3 (a b c : Char) (rest : List Char) :
    tripleNLFree (a :: b :: c :: rest) =
      (!(a == '\n' && b == '\n' && c == '\n') && tripleNLFree (b :: c :: rest)) := rfl

lemma tripleNLFree_tail {c : Char} {cs : List Char}
    (h : tripleNLFree (c :: cs) = true) : tripleNLFree cs = true := by
  cases cs with
  | nil => rfl
  | cons b cs2 =>
    cases cs2 with
    | nil => rfl
    | cons d cs3 =>
      rw [tripleNLFree_cons3, Bool.and_eq_true] at h
      exact h.2

lemma leadNL_le_two_of_tripleNLFree {s : List Char}
    (h : tripleNLFree s = true) : leadNL s ≤ 2 := by
  match s with
  | [] => simp [leadNL]
  | [a] =>
    have := ( List.takeWhile_prefix (l := [a]) (fun c => c == '\n')).sublist.length_le
    simp only [leadNL]
    simp at this
    omega
  | [a, b] =>
    have := ( List.takeWhile_prefix (l := [a, b]) (fun c => c == '\n')).sublist.length_le
    simp only [leadNL]
    simp at this
    omega
  | a :: b :: c :: rest =>
    by_cases ha : a = '\n'
    · subst ha
      by_cases hb : b = '\n'
      · subst hb
        by_cases hcc : c = '\n'
        · subst hcc
          rw [tripleNLFree_cons3] at h
          simp at h
        · rw [leadNL_cons_nl, leadNL_cons_nl, leadNL_cons_ne hcc]
      · rw [leadNL_cons_nl, leadNL_cons_ne hb]
        omega
    · rw [leadNL_cons_ne ha]
      omega

lemma tripleNLFree_cons {c : Char} {cs : List Char} (h1 : tripleNLFree cs = true)
    (h2 : c = '\n' → leadNL cs ≤ 1) : tripleNLFree (c :: cs) = true := by
  cases cs with
  | nil => rfl
  | cons b cs2 =>
    cases cs2 with
    | nil => rfl
    | cons d cs3 =>
      rw [tripleNLFree_cons3, Bool.and_eq_true]
      refine ⟨?_, h1⟩
      by_cases hc : c = '\n'
      · have hlead := h2 hc
        by_cases hb : b = '\n'
        · subst hb
          by_cases hd : d = '\n'
          · subst hd
            rw [leadNL_cons_nl, leadNL_cons_nl] at hlead
            omega
          · simp [hc, hd]
        · simp [hc, hb]
      · simp [hc]

lemma capNLAux_triple (s : List Char) :
    ∀ n, tripleNLFree (capNLAux n s) = true ∧
      leadNL (capNLAux n s) ≤ 2 - min n 2 := by
  induction s with
  | nil => intro n; exact ⟨rfl, by simp [capNLAux, leadNL]⟩
  | cons c cs ih =>
    intro n
    by_cases hc : c = '\n'
    · subst hc
      by_cases hn : n < 2
      · rw [capNLAux_cons_nl_lt hn]
        obtain ⟨iht, ihl⟩ := ih (n + 1)
        constructor
        · apply tripleNLFree_cons iht
          intro _
          have : 2 - min (n + 1) 2 ≤ 1 := by omega
          omega
        · rw [leadNL_cons_nl]
          omega
      · rw [capNLAux_cons_nl_ge hn]
        exact ih n
    · rw [capNLAux_cons_ne hc]
      obtain ⟨iht, ihl⟩ := ih 0
      constructor
      · exact tripleNLFree_cons iht (fun h => absurd h hc)
      · rw [leadNL_cons_ne hc]
        omega

lemma capNLAux_fix (s : List Char) :
    ∀ n, tripleNLFree s = true → leadNL s ≤ 2 - min n 2 → capNLAux n s = s := by
  induction s with
  | nil => intro n _ _; rfl
  | cons c cs ih =>
    intro n ht hl
    by_cases hc : c = '\n'
    · subst hc
      rw [leadNL_cons_nl] at hl
      have hn : n < 2 := by omega
      rw [capNLAux_cons_nl_lt hn]
      congr 1
      exact ih (n + 1) (tripleNLFree_tail ht) (by omega)
    · rw [capNLAux_cons_ne hc]
      congr 1
      have := leadNL_le_two_of_tripleNLFree (tripleNLFree_tail ht)
      exact ih 0 (tripleNLFree_tail ht) (by omega)

lemma capNLAux_getLast (s : List Char) :
    ∀ n {c : Char}, s.getLast? = some c → c ≠ '\n' →
      (capNLAux n s).getLast? = some c := by
  induction s with
  | nil => intro n c h _; exact absurd h (by simp)
  | cons d ds ih =>
    intro n c h hc
    cases ds with
    | nil =>
      have hd : d = c := by simpa using h
      subst hd
      rw [capNLAux_cons_ne hc]
      rfl
    | cons e es =>
      have htail : (e :: es).getLast? = some c := by
        rw [← h, List.getLast?_cons_cons]
      by_cases hd : d = '\n'
      · subst hd
        by_cases hn : n < 2
        · rw [capNLAux_cons_nl_lt hn]
          have hX := ih (n + 1) htail hc
          rcases hXd : capNLAux (n + 1) (e :: es) with _ | ⟨x, xs⟩
          · rw [hXd] at hX
            exact absurd hX (by simp)
          · rw [hXd] at hX
            rw [List.getLast?_cons_cons]
            exact hX
        · rw [capNLAux_cons_nl_ge hn]
          exact ih n htail hc
      · rw [capNLAux_cons_ne hd]
        have hX := ih 0 htail hc
        rcases hXd : capNLAux 0 (e :: es) with _ | ⟨x, xs⟩
        · rw [hXd] at hX
          exact absurd hX (by simp)
        · rw [hXd] at hX
          rw [List.getLast?_cons_cons]
          exact hX

/-! ### Line structure under the newline-capping stage -/

lemma headLine_cons_nl (cs : List Char) : headLine ('\n' :: cs) = [] := by
  simp [headLine]

lemma headLine_cons_ne {c : Char} (h : c ≠ '\n') (cs : List Char) :
    headLine (c :: cs) = c :: headLine cs := by
  simp [headLine, h]

lemma splitNL_decomp (s : List Char) : splitNL s = headLine s :: tailLines s := by
  induction s with
  | nil => rfl
  | cons c cs ih =>
    by_cases hc : c = '\n'
    · subst hc
      rw [splitNL_cons_nl, headLine_cons_nl]
      have : tailLines ('\n' :: cs) = splitNL cs := by
        unfold tailLines
        rw [splitNL_cons_nl]
        rfl
      rw [this]

    · rcases splitNL_cons_ne hc cs with ⟨l, ls, hcs, hccs⟩
      have hl : l = headLine cs ∧ ls = tailLines cs := by
        rw [ih] at hcs
        exact ⟨(List.cons.injEq .. ▸ hcs).1.symm, (List.cons.injEq .. ▸ hcs).2.symm⟩
      have htl : tailLines (c :: cs) = ls := by
        unfold tailLines
        rw [hccs]
        rfl
      rw [hccs, headLine_cons_ne hc, htl, hl.1]

lemma tailLines_cons_nl (cs : List Char) : tailLines ('\n' :: cs) = splitNL cs := by
  unfold tailLines
  rw [splitNL_cons_nl]
  rfl


lemma tailLines_cons_ne {c : Char} (h : c ≠ '\n') (cs : List Char) :
    tailLines (c :: cs) = tailLines cs := by
  rcases splitNL_cons_ne h cs with ⟨l, ls, hcs, hccs⟩
  unfold tailLines
  rw [hccs, hcs]
  rfl


lemma mem_tailLines_mem_splitNL {l : List Char} {s : List Char}
    (h : l ∈ tailLines s) : l ∈ splitNL s := by
  rw [splitNL_decomp]
  exact List.mem_cons_of_mem _ h

/-- Every line of the newline-capped string is a line of the original or
empty. -/
lemma capNLAux_lines (s : List Char) :
    (∀ n, ∀ l ∈ splitNL (capNLAux n s), l = [] ∨ l ∈ splitNL s) ∧
    headLine (capNLAux 0 s) = headLine s ∧
    (∀ l ∈ tailLines (capNLAux 0 s), l = [] ∨ l ∈ tailLines s) := by
  induction s with
  | nil =>
    refine ⟨?_, rfl, ?_⟩
    · intro n l hl
      show l = [] ∨ _
      left
      have : capNLAux n [] = [] := rfl
      rw [this] at hl
      simpa [splitNL] using hl
    · intro l hl
      have : tailLines (capNLAux 0 []) = [] := rfl
      rw [this] at hl
      exact absurd hl (List.not_mem_nil l)
  | cons c cs ih =>
    obtain ⟨ih1, ih2, ih3⟩ := ih
    by_cases hc : c = '\n'
    · subst hc
      refine ⟨?_, ?_, ?_⟩
      · intro n l hl
        by_cases hn : n < 2
        · rw [capNLAux_cons_nl_lt hn, splitNL_cons_nl] at hl
          rcases List.mem_cons.1 hl with hl | hl
          · left; exact hl
          · rcases ih1 (n + 1) l hl with h | h
            · left; exact h
            · right; rw [splitNL_cons_nl]; exact List.mem_cons_of_mem _ h
        · rw [capNLAux_cons_nl_ge hn] at hl
          rcases ih1 n l hl with h | h
          · left; exact h
          · right; rw [splitNL_cons_nl]; exact List.mem_cons_of_mem _ h
      · rw [capNLAux_cons_nl_lt (by omega), headLine_cons_nl, headLine_cons_nl]
      · intro l hl
        rw [capNLAux_cons_nl_lt (by omega), tailLines_cons_nl] at hl
        rcases ih1 1 l hl with h | h
        · left; exact h
        · right; rw [tailLines_cons_nl]; exact h
    · refine ⟨?_, ?_, ?_⟩
      · intro n l hl
        rw [capNLAux_cons_ne hc] at hl
        rw [splitNL_decomp (c :: capNLAux 0 cs)] at hl
        rcases List.mem_cons.1 hl with hl | hl
        · right
          rw [headLine_cons_ne hc, ih2] at hl
          rw [splitNL_decomp (c :: cs), headLine_cons_ne hc]
          rw [hl]
          exact List.mem_cons_self _ _
        · rw [tailLines_cons_ne hc] at hl
          rcases ih3 l hl with h | h
          · left; exact h
          · right
            rw [splitNL_decomp (c :: cs)]
            rw [tailLines_cons_ne hc]
            exact List.mem_cons_of_mem _ h
      · rw [capNLAux_cons_ne hc, headLine_cons_ne hc, headLine_cons_ne hc, ih2]
      · intro l hl
        rw [capNLAux_cons_ne hc, tailLines_cons_ne hc] at hl
        rcases ih3 l hl with h | h
        · left; exact h
        · right; rw [tailLines_cons_ne hc]; exact h

lemma capNL_linesTrimmed {y : List Char} (h : LinesTrimmed y) :
    LinesTrimmed (capNL y) := by
  intro l hl
  rcases (capNLAux_lines y).1 0 l hl with h0 | h0
  · rw [h0]; rfl
  · exact h l h0

/-! ### Whole-string trimming preserves trimmed lines -/

lemma LT_tail_nl {cs : List Char} (h : LinesTrimmed ('\n' :: cs)) :
    LinesTrimmed cs := by
  intro l hl
  apply h l
  rw [splitNL_cons_nl]
  exact List.mem_cons_of_mem _ hl

/-- In a string whose lines are trimmed, the first character is a newline or
not whitespace at all. -/
lemma LT_head {x : List Char} (h : LinesTrimmed x) {c : Char}
    (hc : x.head? = some c) : isWS c = false ∨ c = '\n' := by
  cases x with
  | nil => exact Option.noConfusion hc
  | cons d ds =>
    rw [List.head?_cons, Option.some.injEq] at hc
    subst hc
    by_cases hd : d = '\n'
    · right; exact hd
    · left
      have hmem : headLine (d :: ds) ∈ splitNL (d :: ds) := by
        rw [splitNL_decomp]
        exact List.mem_cons_self _ _
      have htrim := h _ hmem
      rw [headLine_cons_ne hd] at htrim
      exact trim_head_not (by rw [htrim]; rfl)

/-- In a string whose lines are trimmed, stripping leading whitespace only
strips leading newlines. -/
lemma dropWhile_isWS_eq_dropNL {x : List Char} (h : LinesTrimmed x) :
    x.dropWhile isWS = x.dropWhile (fun c => c == '\n') := by
  induction x with
  | nil => rfl
  | cons c cs ih =>
    rcases LT_head h (by rfl) with hc | hc
    · rw [List.dropWhile_cons, if_neg (by simp [hc]),
        List.dropWhile_cons, if_neg]
      simp only [beq_iff_eq]
      intro hcc
      rw [hcc] at hc
      exact absurd hc (by decide)
    · subst hc
      rw [List.dropWhile_cons, if_pos (by decide),
        List.dropWhile_cons, if_pos (by decide)]
      exact ih (LT_tail_nl h)

/-- Stripping leading newlines only removes leading empty lines. -/
lemma splitNL_dropNL_subset (x : List Char) :
    ∀ l ∈ splitNL (x.dropWhile (fun c => c == '\n')), l = [] ∨ l ∈ splitNL x := by
  induction x with
  | nil => intro l hl; left; simpa [splitNL] using hl
  | cons c cs ih =>
    intro l hl
    by_cases hc : c = '\n'
    · subst hc
      rw [List.dropWhile_cons, if_pos (by decide)] at hl
      rcases ih l hl with h | h
      · left; exact h
      · right; rw [splitNL_cons_nl]; exact List.mem_cons_of_mem _ h
    · rw [List.dropWhile_cons, if_neg (by simp [hc])] at hl
      right; exact hl

/-- Dropping the trailing run, expressed on a cons cell. -/
lemma dropTrail_cons (p : Char → Bool) (c : Char) (t : List Char) :
    ((c :: t).reverse.dropWhile p).reverse =
      if t.reverse.dropWhile p = [] then (if p c then [] else [c])
      else c :: (t.reverse.dropWhile p).reverse := by
  rw [List.reverse_cons, List.dropWhile_append]
  by_cases h : t.reverse.dropWhile p = []
  · rw [if_pos (by simp [h]), if_pos h]
    by_cases hp : p c
    · rw [List.dropWhile_cons, if_pos hp]
      simp [hp]
    · rw [List.dropWhile_cons, if_neg hp]
      simp [hp]
  · rw [if_neg (by simpa using h), if_neg h]
    rw [List.reverse_append]
    rfl

/-- All-whitespace is detected the same from either end. -/
lemma dropWhile_rev_nil_iff (p : Char → Bool) (t : List Char) :
    t.reverse.dropWhile p = [] ↔ t.dropWhile p = [] := by
  rw [List.dropWhile_eq_nil_iff, List.dropWhile_eq_nil_iff]
  constructor
  · intro h x hx
    exact h x (List.mem_reverse.mpr hx)
  · intro h x hx
    exact h x (List.mem_reverse.mp hx)

/-- Dropping the leading run and dropping the trailing run commute. -/
lemma dropWhile_dropTrail_comm (p : Char → Bool) (t : List Char) :
    ((t.reverse.dropWhile p).reverse).dropWhile p =
      ((t.dropWhile p).reverse.dropWhile p).reverse := by
  induction t with
  | nil => rfl
  | cons c t2 ih =>
    by_cases hp : p c <;> by_cases he : t2.reverse.dropWhile p = []
    · have het : t2.dropWhile p = [] := (dropWhile_rev_nil_iff p t2).mp he
      rw [dropTrail_cons, if_pos he, if_pos hp, List.dropWhile_cons, if_pos hp, het]
      rfl
    · rw [dropTrail_cons, if_neg he, List.dropWhile_cons, if_pos hp,
        List.dropWhile_cons, if_pos hp]
      exact ih
    · rw [dropTrail_cons, if_pos he, if_neg hp, List.dropWhile_cons, if_neg hp,
        List.dropWhile_cons, if_neg hp, dropTrail_cons, if_pos he, if_neg hp]
    · rw [dropTrail_cons, if_neg he, List.dropWhile_cons, if_neg hp,
        List.dropWhile_cons, if_neg hp, dropTrail_cons, if_neg he]

/-- Trimming commutes with reversal. -/
lemma trim_reverse (l : List Char) :
    trimChars l.reverse = (trimChars l).reverse := by
  have hK := dropWhile_dropTrail_comm isWS l.reverse
  rw [List.reverse_reverse] at hK
  unfold trimChars
  rw [← hK, List.reverse_reverse]

lemma splitNL_append_last_nl (t : List Char) :
    splitNL (t ++ ['\n']) = splitNL t ++ [[]] := by
  induction t with
  | nil => rfl
  | cons c t2 ih =>
    by_cases hc : c = '\n'
    · subst hc
      rw [List.cons_append, splitNL_cons_nl, ih, splitNL_cons_nl, List.cons_append]
    · rcases splitNL_cons_ne hc (t2 ++ ['\n']) with ⟨l0, ls0, hs, hcs⟩
      rcases splitNL_cons_ne hc t2 with ⟨l1, ls1, hs1, hcs1⟩
      rw [ih, hs1] at hs
      have hl0 : l0 = l1 := (List.cons.injEq .. ▸ hs.symm).1
      have hls0 : ls0 = ls1 ++ [[]] := by
        have := (List.cons.injEq .. ▸ hs.symm).2
        exact this
      rw [List.cons_append, hcs, hcs1, hl0, hls0, List.cons_append]

lemma splitNL_append_last_ne {c : Char} (hc : c ≠ '\n') (t : List Char) :
    ∃ L l, splitNL t = L ++ [l] ∧ splitNL (t ++ [c]) = L ++ [l ++ [c]] := by
  induction t with
  | nil =>
    refine ⟨[], [], rfl, ?_⟩
    rw [List.nil_append]
    exact (splitNL_noNL (by
      intro hm
      exact hc (List.mem_singleton.mp hm).symm)).trans (by rw [List.nil_append])
  | cons d t2 ih =>
    rcases ih with ⟨L, l, h1, h2⟩
    by_cases hd : d = '\n'
    · subst hd
      refine ⟨[] :: L, l, ?_, ?_⟩
      · rw [splitNL_cons_nl, h1, List.cons_append]
      · rw [List.cons_append, splitNL_cons_nl, h2, List.cons_append]
    · rcases splitNL_cons_ne hd t2 with ⟨l1, ls1, hs1, hcs1⟩
      rcases splitNL_cons_ne hd (t2 ++ [c]) with ⟨l2, ls2, hs2, hcs2⟩
      cases L with
      | nil =>
        rw [h1] at hs1
        rw [h2] at hs2
        rw [List.nil_append] at hs1 hs2
        have hl1 : l1 = l ∧ ls1 = [] :=
          ⟨(List.cons.injEq .. ▸ hs1).1.symm, (List.cons.injEq .. ▸ hs1).2.symm⟩
        have hl2 : l2 = l ++ [c] ∧ ls2 = [] :=
          ⟨(List.cons.injEq .. ▸ hs2).1.symm, (List.cons.injEq .. ▸ hs2).2.symm⟩
        refine ⟨[], d :: l, ?_, ?_⟩
        · rw [hcs1, hl1.1, hl1.2, List.nil_append]
        · rw [List.cons_append, hcs2, hl2.1, hl2.2, List.nil_append, List.cons_append]
      | cons L0 Ls =>
        rw [h1, List.cons_append] at hs1
        rw [h2, List.cons_append] at hs2
        have hl1 : l1 = L0 ∧ ls1 = Ls ++ [l] :=
          ⟨(List.cons.injEq .. ▸ hs1).1.symm, (List.cons.injEq .. ▸ hs1).2.symm⟩
        have hl2 : l2 = L0 ∧ ls2 = Ls ++ [l ++ [c]] :=
          ⟨(List.cons.injEq .. ▸ hs2).1.symm, (List.cons.injEq .. ▸ hs2).2.symm⟩
        refine ⟨(d :: L0) :: Ls, l, ?_, ?_⟩
        · rw [hcs1, hl1.1, hl1.2, List.cons_append]
        · rw [List.cons_append, hcs2, hl2.1, hl2.2, List.cons_append]

/-- Splitting into lines commutes with reversal: the lines of the reversed
string are the reversed lines, in reverse order. -/
lemma splitNL_reverse (x : List Char) :
    splitNL x.reverse = ((splitNL x).map List.reverse).reverse := by
  induction x with
  | nil => rfl
  | cons c cs ih =>
    rw [List.reverse_cons]
    by_cases hc : c = '\n'
    · subst hc
      rw [splitNL_append_last_nl, ih, splitNL_cons_nl, List.map_cons,
        List.reverse_cons]
      rfl
    · rcases splitNL_append_last_ne hc cs.reverse with ⟨L, l, h1, h2⟩
      rcases splitNL_cons_ne hc cs with ⟨l0, ls0, hs0, hcs0⟩
      rw [hs0, List.map_cons, List.reverse_cons] at ih
      rw [h1] at ih
      have hL : L = (ls0.map List.reverse).reverse ∧ l = l0.reverse := by
        have := List.append_inj' ih rfl
        exact ⟨this.1, by simpa using this.2⟩
      rw [h2, hcs0, List.map_cons, List.reverse_cons, hL.1, hL.2]
      rw [show (c :: l0).reverse = l0.reverse ++ [c] from List.reverse_cons c l0]

/-- Reversal preserves having all lines trimmed. -/
lemma LT_reverse {x : List Char} (h : LinesTrimmed x) :
    LinesTrimmed x.reverse := by
  intro l hl
  rw [splitNL_reverse] at hl
  rcases List.mem_map.1 (List.mem_reverse.1 hl) with ⟨l0, hl0, rfl⟩
  rw [trim_reverse, h l0 hl0]

/-- The lines of a trimmed-lines string survive whole-string trimming (up to
dropped boundary empty lines). -/
lemma splitNL_trim_subset {x : List Char} (h : LinesTrimmed x) :
    ∀ l ∈ splitNL (trimChars x), l = [] ∨ l ∈ splitNL x := by
  have hu_lines : ∀ l ∈ splitNL (x.dropWhile isWS), l = [] ∨ l ∈ splitNL x := by
    rw [dropWhile_isWS_eq_dropNL h]
    exact splitNL_dropNL_subset x
  have hu : LinesTrimmed (x.dropWhile isWS) := by
    intro l hl
    rcases hu_lines l hl with h0 | h0
    · rw [h0]; rfl
    · exact h l h0
  have hur : LinesTrimmed (x.dropWhile isWS).reverse := LT_reverse hu
  have hv_lines : ∀ l ∈ splitNL ((x.dropWhile isWS).reverse.dropWhile isWS),
      l = [] ∨ l ∈ splitNL (x.dropWhile isWS).reverse := by
    rw [dropWhile_isWS_eq_dropNL hur]
    exact splitNL_dropNL_subset _
  intro l hl
  have : trimChars x = ((x.dropWhile isWS).reverse.dropWhile isWS).reverse := rfl
  rw [this, splitNL_reverse] at hl
  rcases List.mem_map.1 (List.mem_reverse.1 hl) with ⟨l0, hl0, rfl⟩
  rcases hv_lines l0 hl0 with h0 | h0
  · left; rw [h0]; rfl
  · rw [splitNL_reverse] at h0
    rcases List.mem_map.1 (List.mem_reverse.1 h0) with ⟨l1, hl1, rfl⟩
    rw [List.reverse_reverse]
    rcases hu_lines l1 hl1 with h1 | h1
    · left; exact h1
    · right; exact h1

/-- Whole-string trimming preserves having all lines trimmed. -/
lemma linesTrimmed_trim {x : List Char} (h : LinesTrimmed x) :
    LinesTrimmed (trimChars x) := by
  intro l hl
  rcases splitNL_trim_subset h l hl with h0 | h0
  · rw [h0]; rfl
  · exact h l h0

/-! ### No-tab and no-double-space through the line stage -/

lemma headLine_prefix (s : List Char) : headLine s <+: s := by
  induction s with
  | nil => exact List.nil_prefix
  | cons c cs ih =>
    by_cases hc : c = '\n'
    · subst hc
      rw [headLine_cons_nl]
      exact List.nil_prefix
    · rw [headLine_cons_ne hc]
      exact (List.cons_prefix_cons).mpr ⟨rfl, ih⟩

lemma splitNL_part {s : List Char} : ∀ l ∈ splitNL s, l <:+: s := by
  induction s with
  | nil =>
    intro l hl
    have : l = [] := by simpa [splitNL] using hl
    rw [this]
  | cons c cs ih =>
    intro l hl
    by_cases hc : c = '\n'
    · subst hc
      rw [splitNL_cons_nl] at hl
      rcases List.mem_cons.1 hl with hl | hl
      · rw [hl]; exact List.nil_infix
      · exact (ih l hl).trans (List.suffix_cons '\n' cs).isInfix
    · rw [splitNL_decomp, headLine_cons_ne hc, tailLines_cons_ne hc] at hl
      rcases List.mem_cons.1 hl with hl | hl
      · rw [hl]
        exact ((List.cons_prefix_cons).mpr ⟨rfl, headLine_prefix cs⟩).isInfix
      · exact (ih l (mem_tailLines_mem_splitNL hl)).trans
          (List.suffix_cons c cs).isInfix

lemma mem_of_mem_splitNL {c : Char} {l s : List Char}
    (hl : l ∈ splitNL s) (hc : c ∈ l) : c ∈ s :=
  (splitNL_part l hl).sublist.subset hc

lemma mem_joinNL {c : Char} {ls : List (List Char)} (h : c ∈ joinNL ls) :
    (∃ l ∈ ls, c ∈ l) ∨ c = '\n' := by
  induction ls with
  | nil => exact absurd h (List.not_mem_nil c)
  | cons l ls2 ih =>
    cases ls2 with
    | nil => exact Or.inl ⟨l, List.mem_cons_self _ _, h⟩
    | cons l2 ls3 =>
      rw [joinNL_cons (by simp)] at h
      rcases List.mem_append.1 h with h | h
      · exact Or.inl ⟨l, List.mem_cons_self _ _, h⟩
      · rcases List.mem_cons.1 h with h | h
        · exact Or.inr h
        · rcases ih h with ⟨l0, hl0, hc0⟩ | h
          · exact Or.inl ⟨l0, List.mem_cons_of_mem _ hl0, hc0⟩
          · exact Or.inr h

lemma mem_stage3 {c : Char} {s : List Char} (h : c ∈ stage3 s) :
    c ∈ s ∨ c = '\n' := by
  rcases mem_joinNL h with ⟨l, hl, hc⟩ | h
  · rcases List.mem_map.1 hl with ⟨l0, hl0, rfl⟩
    exact Or.inl (mem_of_mem_splitNL hl0 (mem_trimChars hc))
  · exact Or.inr h

lemma noTab_stage3 {s : List Char} (h : '\t' ∉ s) : '\t' ∉ stage3 s := by
  intro hm
  rcases mem_stage3 hm with hm | hm
  · exact h hm
  · exact absurd hm (by decide)

lemma chain'_NDS_joinNL {ls : List (List Char)}
    (h : ∀ l ∈ ls, List.Chain' NDS l) : List.Chain' NDS (joinNL ls) := by
  induction ls with
  | nil => simp [joinNL]
  | cons l ls2 ih =>
    cases ls2 with
    | nil => exact h l (List.mem_cons_self _ _)
    | cons l2 ls3 =>
      rw [joinNL_cons (by simp)]
      refine List.chain'_append.mpr ⟨h l (List.mem_cons_self _ _), ?_, ?_⟩
      · refine List.chain'_cons'.mpr ⟨?_, ih (fun x hx => h x (List.mem_cons_of_mem _ hx))⟩
        intro y _ hcon
        exact absurd hcon.1 (by decide)
      · intro x _ y hy hcon
        have hy2 : y = '\n' := (by simpa using hy : '\n' = y).symm
        rw [hy2] at hcon
        exact absurd hcon.2 (by decide)

lemma chain'_NDS_stage3 {s : List Char} (h : List.Chain' NDS s) :
    List.Chain' NDS (stage3 s) := by
  apply chain'_NDS_joinNL
  intro l hl
  rcases List.mem_map.1 hl with ⟨l0, hl0, rfl⟩
  exact List.Chain'.infix ( List.Chain'.infix h (splitNL_part l0 hl0)) (trim_part l0)

/-! ### Trimmedness through the newline-capping stage -/

lemma capNL_head (y : List Char) : (capNL y).head? = y.head? :=
  capNLAux_head_zero y

lemma trimmed_capNL {y : List Char} (h : Trimmed y) : Trimmed (capNL y) := by
  by_cases hnil : y = []
  · subst hnil
    rfl
  · apply trim_eq_self
    · intro c hc
      rw [capNL_head] at hc
      apply trim_head_not (l := y)
      rw [h]
      exact hc
    · intro c hc
      rcases hl : y.getLast? with _ | d
      · exact absurd hl (by simpa [List.getLast?_eq_none_iff] using hnil)
      · have hdw : isWS d = false := by
          apply trim_last_not (l := y)
          rw [h]
          exact hl
        have hdnl : d ≠ '\n' := by
          intro hdd
          rw [hdd] at hdw
          exact absurd hdw (by decide)
        have := capNLAux_getLast y 0 hl hdnl
        rw [show capNL y = capNLAux 0 y from rfl, this, Option.some.injEq] at hc
        rw [← hc]
        exact hdw

/-! ### The shape of normalizer output, and iterated application -/

lemma cleanCore_eq (s : List Char) :
    cleanCore s = trimChars (stage3 (capNL (collapseHT s))) := rfl

/-- One application of the pipeline always produces a `CleanShape` string. -/
lemma cleanShape_cleanCore (s : List Char) : CleanShape (cleanCore s) := by
  rw [cleanCore_eq]
  refine ⟨?_, ?_, ?_, ?_⟩
  · intro hm
    have hm2 := mem_trimChars hm
    rcases mem_stage3 hm2 with hm3 | hm3
    · exact collapseHTAux_noTab s false (capNLAux_mem 0 hm3)
    · exact absurd hm3 (by decide)
  · exact List.Chain'.infix
      (chain'_NDS_stage3 (capNLAux_chain (collapseHTAux_chain s false) 0))
      (trim_part _)
  · exact linesTrimmed_trim (stage3_linesTrimmed _)
  · exact trim_idem _

/-- On a `CleanShape` string, the pipeline reduces to the newline-capping
stage alone. -/
lemma cleanCore_of_shape {y : List Char} (h : CleanShape y) :
    cleanCore y = capNL y := by
  obtain ⟨h1, h2, h3, h4⟩ := h
  rw [cleanCore_eq]
  rw [show collapseHT y = y from
    collapseHTAux_fix y false h1 h2 (fun hf => absurd hf (by decide))]
  rw [stage3_fix (capNL_linesTrimmed h3),
    show trimChars (capNL y) = capNL y from trimmed_capNL h4]

lemma shape_capNL {y : List Char} (h : CleanShape y) : CleanShape (capNL y) := by
  obtain ⟨h1, h2, h3, h4⟩ := h
  exact ⟨fun hm => h1 (capNLAux_mem 0 hm), capNLAux_chain h2 0,
    capNL_linesTrimmed h3, trimmed_capNL h4⟩

/-- A `CleanShape` string without triple newlines is a fixed point. -/
lemma cleanCore_capNL_fix {z : List Char} (h : CleanShape z)
    (ht : tripleNLFree z = true) : cleanCore z = z := by
  rw [cleanCore_of_shape h]
  apply capNLAux_fix z 0 ht
  have := leadNL_le_two_of_tripleNLFree ht
  omega

/-- The third application of the pipeline changes nothing: two applications
reach a fixed point. -/
lemma cleanCore_three (s : List Char) :
    cleanCore (cleanCore (cleanCore s)) = cleanCore (cleanCore s) := by
  have hy := cleanShape_cleanCore s
  have h2 : cleanCore (cleanCore s) = capNL (cleanCore s) := cleanCore_of_shape hy
  have hz : CleanShape (capNL (cleanCore s)) := shape_capNL hy
  have hzt : tripleNLFree (capNL (cleanCore s)) = true :=
    (capNLAux_triple (cleanCore s) 0).1
  rw [h2, cleanCore_capNL_fix hz hzt]

/-- The empty-string guard of `cleanContent` is absorbed by the pipeline
(`cleanCore [] = []`), giving a guard-free description. -/
lemma cleanContent_some (t : String) :
    cleanContent (some t) = String.mk (cleanCore t.data) := by
  by_cases h : t = ""
  · subst h
    rfl
  · simp [cleanContent, h]

/-! ### Claims about the normalizer output -/

/-- C1 counterexample: the normalizer is not idempotent.  On
`"a\n \n \nb"` the first pass trims the whitespace-only lines to empty
*after* the newline-collapsing step has run, leaving `"a\n\n\nb"`, which a
second pass collapses further to `"a\n\nb"`. -/
theorem normalize_not_idempotent :
    cleanContent (some (cleanContent (some "a\n \n \nb"))) ≠
      cleanContent (some "a\n \n \nb") ∧
    cleanContent (some "a\n \n \nb") = "a\n\n\nb" ∧
    cleanContent (some (cleanContent (some "a\n \n \nb"))) = "a\n\nb" := by
  refine ⟨by decide, by decide, by decide⟩

/-- C1 amended: two applications of the normalizer reach a fixed point — for
every input string `x`, `normalize (normalize (normalize x)) =
normalize (normalize x)`; re-applying the normalizer to the output of a
double application changes nothing (while a single application need not be a
fixed point). -/
theorem normalize_twice_fixed (s : String) :
    cleanContent (some (cleanContent (some (cleanContent (some s))))) =
      cleanContent (some (cleanContent (some s))) := by
  have hdata : ∀ t : String, (cleanContent (some t)).data = cleanCore t.data := by
    intro t
    rw [cleanContent_some]
  apply String.ext
  simp only [hdata]
  exact cleanCore_three s.data

/-- C10: for every input string, the normalizer output contains no tab and no
two adjacent spaces, no line of the output starts or ends with a space or
tab, and the output as a whole neither starts nor ends with whitespace. -/
theorem normalize_output_shape (s : String) :
    '\t' ∉ (cleanContent (some s)).data ∧
    List.Chain' NDS (cleanContent (some s)).data ∧
    (∀ l ∈ splitNL (cleanContent (some s)).data,
      (∀ c, l.head? = some c → c ≠ ' ' ∧ c ≠ '\t') ∧
      (∀ c, l.getLast? = some c → c ≠ ' ' ∧ c ≠ '\t')) ∧
    (∀ c, (cleanContent (some s)).data.head? = some c → isWS c = false) ∧
    (∀ c, (cleanContent (some s)).data.getLast? = some c → isWS c = false) := by
  have he : (cleanContent (some s)).data = cleanCore s.data := by
    rw [cleanContent_some]
  rw [he]
  obtain ⟨h1, h2, h3, h4⟩ := cleanShape_cleanCore s.data
  refine ⟨h1, h2, ?_, ?_, ?_⟩
  · intro l hl
    have htl := h3 l hl
    constructor
    · intro c hc
      have hws := trim_head_not (l := l) (by rw [htl]; exact hc)
      constructor
      · intro hcon; rw [hcon] at hws; exact absurd hws (by decide)
      · intro hcon; rw [hcon] at hws; exact absurd hws (by decide)
    · intro c hc
      have hws := trim_last_not (l := l) (by rw [htl]; exact hc)
      constructor
      · intro hcon; rw [hcon] at hws; exact absurd hws (by decide)
      · intro hcon; rw [hcon] at hws; exact absurd hws (by decide)
  · intro c hc
    exact trim_head_not (l := cleanCore s.data) (by rw [h4]; exact hc)
  · intro c hc
    exact trim_last_not (l := cleanCore s.data) (by rw [h4]; exact hc)

/-- Witness for C10 at the concrete input `" a\tb \n\nc "` (which normalizes
to `"a b\n\nc"`): its first line starts with `'a'`, which is neither a space
nor a tab, and the whole output starts with a non-whitespace character. -/
theorem normalize_output_shape_witness :
    (cleanContent (some " a\tb \n\nc ")).data.head? = some 'a' ∧
    ('a' ≠ ' ' ∧ 'a' ≠ '\t') ∧ isWS 'a' = false := by
  refine ⟨by decide, ?_, ?_⟩
  · have hline : ['a', ' ', 'b'] ∈ splitNL (cleanContent (some " a\tb \n\nc ")).data := by
      decide
    have hhead : (['a', ' ', 'b'] : List Char).head? = some 'a' := by decide
    exact ((normalize_output_shape " a\tb \n\nc ").2.2.1 ['a', ' ', 'b'] hline).1 'a' hhead
  · exact (normalize_output_shape " a\tb \n\nc ").2.2.2.1 'a' (by decide)

end QuizBackend
